import Mathlib

/-!
Verification development for the client-side PDF editor's page-range and
selection-ordering core.

Strings from the JavaScript source are modelled as `List Char`; page numbers
and page counts as `Int` (JavaScript numbers used only at integral values by
this code).  Each definition below embeds one function of the source:

* `parsePageRanges`       — `parsePageRanges(text, totalPages)` in `src/js/app.js`
                            (split on `,`, trim, expand tokens, dedup by a `Set`
                            spread that keeps first occurrences).
* `formatPageRanges`      — `PagePreview.formatPageRanges(pages)` in `src/js/app.js`.
* `parsePageRangesSorted` — `parsePageRanges(text, totalPages)` in the second
                            script variant (a `Set` filled during the token loop,
                            then `Array.from(set).sort((a,b) => a-b)`).
* `PagePreviewState` with `togglePageSelection`, `getSelectedPagesArray`,
  `selectAll`, `deselectAll` — the `PagePreview` selection model of `src/js/app.js`
  (`selectedPages` is a JS `Set`, modelled as an insertion-ordered duplicate-free
  list; the visual thumbnail order read back from the DOM is the `domOrder` field).
* `reorder`               — the file-item drop handler of `initMergeController`
                            (index adjustment plus the two `splice` calls).
-/

namespace PdfEditor

/-- Whitespace as removed by `String.prototype.trim` (the code points this
code can meet in practice: space, tab, newline, carriage return). -/
def isSpaceChar (c : Char) : Bool :=
  c == ' ' || c == '\t' || c == '\n' || c == '\r'

/-- `String.prototype.trim`: drop leading and trailing whitespace. -/
def trimChars (l : List Char) : List Char :=
  ((l.dropWhile isSpaceChar).reverse.dropWhile isSpaceChar).reverse

/-- `String.prototype.split(sep)` for a one-character separator: the list of
parts between separators; empty parts are kept, and the empty string yields
one empty part, as in JavaScript. -/
def splitOnChar (c : Char) : List Char → List (List Char)
  | [] => [[]]
  | x :: xs =>
    match splitOnChar c xs with
    | [] => [[]]
    | p :: ps => if x = c then [] :: p :: ps else (x :: p) :: ps

/-- Numeric value of a decimal digit character. -/
def digVal (c : Char) : Nat := c.toNat - '0'.toNat

/-- Value of a list of decimal digit characters, most significant first. -/
def valDigits (l : List Char) : Nat := l.foldl (fun a c => 10 * a + digVal c) 0

/-- The digit-consuming part of `parseInt(s, 10)`: take the maximal leading
run of decimal digits; no digits means `NaN` (here `none`). -/
def parseDigits (l : List Char) : Option Nat :=
  let ds := l.takeWhile Char.isDigit
  if ds = [] then none else some (valDigits ds)

/-- `parseInt(s, 10)`: skip leading whitespace, accept an optional sign, then
read the maximal run of decimal digits, ignoring any trailing garbage;
`none` models `NaN`. -/
def parseIntM (l : List Char) : Option Int :=
  match l.dropWhile isSpaceChar with
  | [] => none
  | c :: rest =>
    if c = '-' then (parseDigits rest).map (fun n => -(n : Int))
    else if c = '+' then (parseDigits rest).map (fun n => (n : Int))
    else (parseDigits (c :: rest)).map (fun n => (n : Int))

/-- The pages `s, s+1, ..., e` (empty when `e < s`): the loop
`for (let i = start; i <= stop; i++)`. -/
def rangeList (s e : Int) : List Int :=
  (List.range (e + 1 - s).toNat).map (fun i : Nat => s + (i : Int))

/-- The body of the `for (const part of parts)` loop of `parsePageRanges` in
`src/js/app.js`: trim the part; a part containing `-` is split on `-` and its
first two pieces parsed (`const [start, end] = ...`), accepted when both parse
and `1 ≤ start ≤ end`, expanding to `start .. min(end, totalPages)`; a part
without `-` is a single page, accepted when `1 ≤ p ≤ totalPages`.  A rejected
part contributes nothing.  (The token loop of the second script variant is
character-identical, with `i <= end && i <= totalPages` for the same bound.) -/
def tokenPages (totalPages : Int) (part : List Char) : List Int :=
  let t := trimChars part
  if '-' ∈ t then
    let pieces := splitOnChar '-' t
    match parseIntM (trimChars (pieces.getD 0 [])),
          parseIntM (trimChars (pieces.getD 1 [])) with
    | some s, some e =>
      if 1 ≤ s ∧ s ≤ e then rangeList s (min e totalPages) else []
    | _, _ => []
  else
    match parseIntM t with
    | some p => if 1 ≤ p ∧ p ≤ totalPages then [p] else []
    | none => []

/-- The `pageNumbers` array after the token loop: concatenation of every
part's contribution, in input order. -/
def expandPages (text : List Char) (totalPages : Int) : List Int :=
  ((splitOnChar ',' text).map (tokenPages totalPages)).flatten

/-- `[...new Set(arr)]`: a JS `Set` keeps insertion order and ignores a
re-inserted element, so the spread keeps each value's first occurrence.
`seen` is the set's current contents. -/
def dedupAux (seen : List Int) : List Int → List Int
  | [] => []
  | x :: xs => if x ∈ seen then dedupAux seen xs else x :: dedupAux (x :: seen) xs

/-- `parsePageRanges(text, totalPages)` of `src/js/app.js`: expand all parts,
then `return [...new Set(pageNumbers)]`. -/
def parsePageRanges (text : List Char) (totalPages : Int) : List Int :=
  dedupAux [] (expandPages text totalPages)

/-- `parsePageRanges(text, totalPages)` of the second script variant
(`src/unnamed/part_000`): the same token loop feeds a `Set` directly
(insertion order, first-occurrence dedup), and the result is
`Array.from(pageNumbers).sort((a, b) => a - b)` — ascending order. -/
def parsePageRangesSorted (text : List Char) (totalPages : Int) : List Int :=
  List.insertionSort (· ≤ ·) (dedupAux [] (expandPages text totalPages))

end PdfEditor

namespace PdfEditor

/-- The decimal digit characters, as produced by JavaScript number-to-string
conversion of an integer. -/
def digitChar (d : Nat) : Char :=
  match d with
  | 0 => '0' | 1 => '1' | 2 => '2' | 3 => '3' | 4 => '4'
  | 5 => '5' | 6 => '6' | 7 => '7' | 8 => '8' | 9 => '9'
  | _ => '*'

/-- Digit-by-digit rendering loop: peel the least significant digit onto the
accumulator until the number is a single digit.  The first argument is fuel
making the recursion structural; any fuel above the quotient chain length
(in particular `n + 1`) yields the full rendering. -/
def renderNatAux : Nat → Nat → List Char → List Char
  | 0, _, acc => acc
  | fuel + 1, n, acc =>
    if n < 10 then digitChar n :: acc
    else renderNatAux fuel (n / 10) (digitChar (n % 10) :: acc)

/-- Decimal rendering of a natural number (no leading zeros except for 0
itself), as produced by a JS template literal for a non-negative integer. -/
def renderNat (n : Nat) : List Char :=
  renderNatAux (n + 1) n []

/-- JS template-literal rendering of an integer. -/
def renderInt (n : Int) : List Char :=
  if n < 0 then '-' :: renderNat (-n).toNat else renderNat n.toNat

/-- `Array.prototype.join(',')`. -/
def joinComma : List (List Char) → List Char
  | [] => []
  | [t] => t
  | t :: ts => t ++ ',' :: joinComma ts

/-- One emitted group: `` `${start}` `` when the run is a singleton,
`` `${start}-${end}` `` otherwise. -/
def renderRun (r : Int × Int) : List Char :=
  if r.1 = r.2 then renderInt r.1 else renderInt r.1 ++ '-' :: renderInt r.2

/-- The loop of `formatPageRanges`: `s` and `e` are the `start`/`end`
variables (the current run), the list argument is the remaining input; each
completed run is pushed onto `ranges`. -/
def rangesAux (s e : Int) : List Int → List (List Char)
  | [] => [renderRun (s, e)]
  | p :: ps =>
    if p = e + 1 then rangesAux s p ps
    else renderRun (s, e) :: rangesAux p p ps

/-- `PagePreview.formatPageRanges(pages)` of `src/js/app.js`: empty input
gives the empty string; otherwise walk the list grouping consecutive runs and
join the rendered groups with `,`. -/
def formatPageRanges : List Int → List Char
  | [] => []
  | p :: ps => joinComma (rangesAux p p ps)

end PdfEditor

namespace PdfEditor

/-! ## The `PagePreview` selection model of `src/js/app.js`

`selectedPages` is a JS `Set` of page numbers: insertion-ordered and
duplicate-free, modelled as a `List Int` mutated only through the operations
below.  `domOrder` is the sequence of `data-page` attributes of the page
thumbnails in their current visual (DOM) order; drag-and-drop of thumbnails
permutes it.  `getSelectedPagesArray` reads the DOM order and filters it by
`Set` membership, exactly as the source walks `querySelectorAll` results. -/

structure PagePreviewState where
  domOrder : List Int
  selected : List Int

/-- `PagePreview.togglePageSelection(pageNum, ...)`: `Set.delete` when the
page is present, `Set.add` (which appends in insertion order) when absent. -/
def togglePageSelection (st : PagePreviewState) (p : Int) : PagePreviewState :=
  if p ∈ st.selected then { st with selected := st.selected.erase p }
  else { st with selected := st.selected ++ [p] }

/-- `PagePreview.getSelectedPagesArray()`: walk the thumbnails in DOM order
and keep the pages that are in the selected set. -/
def getSelectedPagesArray (st : PagePreviewState) : List Int :=
  st.domOrder.filter (fun q => decide (q ∈ st.selected))

/-- `Set.add`: append when absent, no-op when present. -/
def setAdd (s : List Int) (p : Int) : List Int :=
  if p ∈ s then s else s ++ [p]

/-- `PagePreview.selectAll()`: `forEach` over the thumbnails with their index,
adding page number `index + 1` to the selected set for each. -/
def selectAll (st : PagePreviewState) : PagePreviewState :=
  { st with
    selected := (List.range st.domOrder.length).foldl
      (fun s (i : Nat) => setAdd s ((i : Int) + 1)) st.selected }

/-- `PagePreview.deselectAll()`: `selectedPages.clear()`. -/
def deselectAll (st : PagePreviewState) : PagePreviewState :=
  { st with selected := [] }

/-! ## The merge-list drop handler of `initMergeController` -/

/-- `arr.splice(i, 1)`: remove the element at index `i` (no-op past the
end). -/
def removeAt (l : List α) (i : Nat) : List α :=
  l.take i ++ l.drop (i + 1)

/-- `arr.splice(i, 0, x)`: insert `x` at index `i` (append when `i` is past
the end). -/
def insertAt (l : List α) (i : Nat) (x : α) : List α :=
  l.take i ++ x :: l.drop i

/-- The reorder step of the file-item drop handler: adjust `toIndex` downward
by one when the item moves toward a larger index (removal shifts the later
positions), then remove at `fromIndex` and insert at the adjusted index.  The
handler only ever runs with a `fromIndex` that indexes the current list (it
was stored by the dragstart of an existing item); the out-of-range branch
returns the list unchanged. -/
def reorder (l : List α) (fromIndex toIndex : Nat) : List α :=
  let t := if fromIndex < toIndex then toIndex - 1 else toIndex
  if fromIndex = t then l
  else
    match l[fromIndex]? with
    | some x => insertAt (removeAt l fromIndex) t x
    | none => l

/-! ## Specification-side descriptions used to state the claims -/

/-- First-occurrence deduplication, stated the way the spec describes it:
keep the head, drop every later occurrence of it, continue. -/
def firstOccDedup : List Int → List Int
  | [] => []
  | x :: xs => x :: firstOccDedup (xs.filter (fun y => y ≠ x))
  termination_by l => l.length
  decreasing_by
    simp only [List.length_cons]
    exact Nat.lt_succ_of_le (List.length_filter_le _ _)

/-- Grouping of a list into runs `(start, end)` of consecutive integers, by
the same single walk the formatter performs. -/
def runsAux (s e : Int) : List Int → List (Int × Int)
  | [] => [(s, e)]
  | p :: ps => if p = e + 1 then runsAux s p ps else (s, e) :: runsAux p p ps

/-- The runs of a list: empty for the empty list, otherwise the walk starting
with the singleton run at the head. -/
def runsOf : List Int → List (Int × Int)
  | [] => []
  | p :: ps => runsAux p p ps

/-- The largest entry of a page list (`0` when empty); for an ascending
sequence this is its last element, the `max(S)` of the round-trip claim. -/
def maxPage (l : List Int) : Int := l.foldr max 0

end PdfEditor

namespace PdfEditor

/-! ## Deduplication lemmas -/

theorem firstOccDedup_cons (x : Int) (xs : List Int) :
    firstOccDedup (x :: xs) = x :: firstOccDedup (xs.filter (fun y => y ≠ x)) := by
  rw [firstOccDedup]

theorem filter_notMem_cons (xs : List Int) (x : Int) (seen : List Int) :
    xs.filter (fun y => decide (y ∉ x :: seen)) =
      (xs.filter (fun y => decide (y ∉ seen))).filter (fun y => y ≠ x) := by
  rw [List.filter_filter]
  apply List.filter_congr
  intro a _
  by_cases hax : a = x <;> by_cases has : a ∈ seen <;>
    simp [hax, has, List.mem_cons]

theorem dedupAux_eq_firstOccDedup (l : List Int) :
    ∀ seen, dedupAux seen l = firstOccDedup (l.filter (fun y => decide (y ∉ seen))) := by
  induction l with
  | nil => intro seen; simp [dedupAux, firstOccDedup]
  | cons x xs ih =>
    intro seen
    by_cases hx : x ∈ seen
    · have hfc : (x :: xs).filter (fun y => decide (y ∉ seen)) =
          xs.filter (fun y => decide (y ∉ seen)) := by
        simp [List.filter_cons, hx]
      rw [dedupAux, if_pos hx, hfc, ih]
    · have hfc : (x :: xs).filter (fun y => decide (y ∉ seen)) =
          x :: xs.filter (fun y => decide (y ∉ seen)) := by
        simp [List.filter_cons, hx]
      rw [dedupAux, if_neg hx, hfc, firstOccDedup_cons, ih (x :: seen),
        filter_notMem_cons]

theorem parsePageRanges_eq_firstOccDedup (text : List Char) (tp : Int) :
    parsePageRanges text tp = firstOccDedup (expandPages text tp) := by
  rw [parsePageRanges, dedupAux_eq_firstOccDedup]
  congr 1
  apply List.filter_eq_self.mpr
  intro a _
  simp

theorem mem_firstOccDedup (a : Int) : ∀ l : List Int, a ∈ firstOccDedup l ↔ a ∈ l := by
  intro l
  induction l using firstOccDedup.induct with
  | case1 => simp [firstOccDedup]
  | case2 x xs ih =>
    rw [firstOccDedup_cons]
    by_cases hax : a = x
    · simp [hax]
    · simp only [List.mem_cons, hax, false_or, ih, List.mem_filter]
      simp [hax]

theorem sublist_firstOccDedup : ∀ l : List Int, List.Sublist (firstOccDedup l) l := by
  intro l
  induction l using firstOccDedup.induct with
  | case1 => simp [firstOccDedup]
  | case2 x xs ih =>
    rw [firstOccDedup_cons]
    exact List.Sublist.cons₂ x (ih.trans (List.filter_sublist xs))

theorem nodup_firstOccDedup : ∀ l : List Int, (firstOccDedup l).Nodup := by
  intro l
  induction l using firstOccDedup.induct with
  | case1 => simp [firstOccDedup]
  | case2 x xs ih =>
    rw [firstOccDedup_cons]
    refine List.nodup_cons.mpr ⟨?_, ih⟩
    intro hmem
    have := (mem_firstOccDedup x _).mp hmem
    simp at this

theorem dedupAux_of_nodup : ∀ l : List Int, ∀ seen, l.Nodup →
    (∀ x ∈ l, x ∉ seen) → dedupAux seen l = l := by
  intro l
  induction l with
  | nil => intro seen _ _; rfl
  | cons x xs ih =>
    intro seen hnd hdisj
    have hx : x ∉ seen := hdisj x (List.mem_cons_self x xs)
    rw [dedupAux, if_neg hx]
    congr 1
    refine ih (x :: seen) (List.nodup_cons.mp hnd).2 ?_
    intro y hy
    rcases List.nodup_cons.mp hnd with ⟨hxn, _⟩
    intro hmem
    rcases List.mem_cons.mp hmem with h | h
    · exact hxn (h ▸ hy)
    · exact hdisj y (List.mem_cons_of_mem _ hy) h

/-! ## `rangeList` lemmas -/

theorem mem_rangeList {p s e : Int} : p ∈ rangeList s e ↔ s ≤ p ∧ p ≤ e := by
  simp only [rangeList, List.mem_map, List.mem_range]
  constructor
  · rintro ⟨i, hi, rfl⟩; omega
  · rintro ⟨h1, h2⟩
    exact ⟨(p - s).toNat, by omega, by omega⟩

theorem rangeList_self (s : Int) : rangeList s s = [s] := by
  simp [rangeList, show (s + 1 - s).toNat = 1 by omega, List.range_succ]

theorem rangeList_snoc {s e : Int} (h : s ≤ e + 1) :
    rangeList s (e + 1) = rangeList s e ++ [e + 1] := by
  rw [rangeList, show (e + 1 + 1 - s).toNat = (e + 1 - s).toNat + 1 by omega,
    List.range_succ, List.map_append, rangeList]
  simp only [List.map_cons, List.map_nil]
  congr 2
  omega

theorem rangeList_length (s e : Int) : (rangeList s e).length = (e + 1 - s).toNat := by
  simp [rangeList]

/-! ## `splitOnChar` lemmas -/

theorem splitOnChar_ne_nil (c : Char) : ∀ l, splitOnChar c l ≠ [] := by
  intro l
  cases l with
  | nil => simp [splitOnChar]
  | cons x xs =>
    rw [splitOnChar]
    cases h : splitOnChar c xs with
    | nil => simp
    | cons p ps => by_cases hx : x = c <;> simp [hx]

theorem splitOnChar_of_not_mem {c : Char} : ∀ {l}, c ∉ l → splitOnChar c l = [l] := by
  intro l
  induction l with
  | nil => intro _; rfl
  | cons x xs ih =>
    intro hc
    have hx : x ≠ c := fun h => hc (h ▸ List.mem_cons_self x xs)
    have hxs : c ∉ xs := fun h => hc (List.mem_cons_of_mem _ h)
    rw [splitOnChar, ih hxs]
    simp [hx]

theorem splitOnChar_append {c : Char} : ∀ {l₁} (l₂), c ∉ l₁ →
    splitOnChar c (l₁ ++ c :: l₂) = l₁ :: splitOnChar c l₂ := by
  intro l₁
  induction l₁ with
  | nil =>
    intro l₂ _
    rw [List.nil_append, splitOnChar]
    cases h : splitOnChar c l₂ with
    | nil => exact absurd h (splitOnChar_ne_nil c l₂)
    | cons p ps => simp [h]
  | cons x xs ih =>
    intro l₂ hc
    have hx : x ≠ c := fun h => hc (h ▸ List.mem_cons_self x xs)
    have hxs : c ∉ xs := fun h => hc (List.mem_cons_of_mem _ h)
    rw [List.cons_append, splitOnChar, ih l₂ hxs]
    simp [hx]

theorem splitOnChar_joinComma : ∀ {ts : List (List Char)}, ts ≠ [] →
    (∀ t ∈ ts, ',' ∉ t) → splitOnChar ',' (joinComma ts) = ts := by
  intro ts
  induction ts with
  | nil => intro h; exact absurd rfl h
  | cons t ts ih =>
    intro _ hcomma
    cases ts with
    | nil =>
      rw [joinComma]
      exact splitOnChar_of_not_mem (hcomma t (List.mem_cons_self _ _))
    | cons t' ts' =>
      rw [joinComma, splitOnChar_append _ (hcomma t (List.mem_cons_self _ _))]
      rw [ih (List.cons_ne_nil _ _) (fun u hu => hcomma u (List.mem_cons_of_mem _ hu))]
      exact List.cons_ne_nil t' ts'

/-! ## Decimal rendering and `parseInt` round-trip lemmas -/

theorem digitChar_props {d : Nat} (h : d < 10) :
    isSpaceChar (digitChar d) = false ∧ (digitChar d).isDigit = true ∧
      digitChar d ≠ '-' ∧ digitChar d ≠ '+' ∧ digitChar d ≠ ',' := by
  interval_cases d <;> exact ⟨rfl, rfl, by decide, by decide, by decide⟩

theorem digVal_digitChar {d : Nat} (h : d < 10) : digVal (digitChar d) = d := by
  interval_cases d <;> rfl

theorem valDigits_append_singleton (l : List Char) (c : Char) :
    valDigits (l ++ [c]) = 10 * valDigits l + digVal c := by
  simp [valDigits, List.foldl_append]

theorem renderNatAux_append : ∀ (fuel n : Nat) (acc : List Char),
    renderNatAux fuel n acc = renderNatAux fuel n [] ++ acc := by
  intro fuel
  induction fuel with
  | zero => intro n acc; rfl
  | succ fuel ih =>
    intro n acc
    by_cases h : n < 10
    · simp [renderNatAux, h]
    · rw [renderNatAux, if_neg h, renderNatAux, if_neg h,
        ih (n / 10) (digitChar (n % 10) :: acc), ih (n / 10) [digitChar (n % 10)],
        List.append_assoc]
      simp

theorem renderNatAux_spec : ∀ (fuel n : Nat), n < fuel →
    (∀ c ∈ renderNatAux fuel n [], ∃ d, d < 10 ∧ c = digitChar d) ∧
      renderNatAux fuel n [] ≠ [] ∧
      valDigits (renderNatAux fuel n []) = n := by
  intro fuel
  induction fuel with
  | zero => intro n h; omega
  | succ fuel ih =>
    intro n h
    by_cases h10 : n < 10
    · rw [renderNatAux, if_pos h10]
      refine ⟨?_, by simp, ?_⟩
      · intro c hc
        rw [List.mem_singleton] at hc
        exact ⟨n, h10, hc⟩
      · simp [valDigits, digVal_digitChar h10]
    · rw [renderNatAux, if_neg h10, renderNatAux_append]
      have hdivlt : n / 10 < n := Nat.div_lt_self (by omega) (by omega)
      obtain ⟨hdig, hne, hval⟩ := ih (n / 10) (by omega)
      refine ⟨?_, by simp [hne], ?_⟩
      · intro c hc
        rcases List.mem_append.mp hc with hmem | hmem
        · exact hdig c hmem
        · rw [List.mem_singleton] at hmem
          exact ⟨n % 10, by omega, hmem⟩
      · rw [valDigits_append_singleton, hval, digVal_digitChar (by omega)]
        omega

theorem renderNat_chars (n : Nat) : ∀ c ∈ renderNat n, ∃ d, d < 10 ∧ c = digitChar d :=
  (renderNatAux_spec (n + 1) n (by omega)).1

theorem renderNat_ne_nil (n : Nat) : renderNat n ≠ [] :=
  (renderNatAux_spec (n + 1) n (by omega)).2.1

theorem valDigits_renderNat (n : Nat) : valDigits (renderNat n) = n :=
  (renderNatAux_spec (n + 1) n (by omega)).2.2

theorem takeWhile_eq_self_of (p : Char → Bool) :
    ∀ l : List Char, (∀ c ∈ l, p c = true) → l.takeWhile p = l := by
  intro l
  induction l with
  | nil => intro _; rfl
  | cons x xs ih =>
    intro h
    rw [List.takeWhile_cons, h x (List.mem_cons_self _ _),
      ih (fun c hc => h c (List.mem_cons_of_mem _ hc))]
    simp

theorem dropWhile_eq_self_of (p : Char → Bool) :
    ∀ l : List Char, (∀ c ∈ l, p c = false) → l.dropWhile p = l := by
  intro l
  cases l with
  | nil => intro _; rfl
  | cons x xs =>
    intro h
    rw [List.dropWhile_cons, h x (List.mem_cons_self _ _)]
    simp

theorem trimChars_eq_self {l : List Char} (h : ∀ c ∈ l, isSpaceChar c = false) :
    trimChars l = l := by
  have h1 : l.dropWhile isSpaceChar = l := dropWhile_eq_self_of _ _ h
  have h2 : l.reverse.dropWhile isSpaceChar = l.reverse :=
    dropWhile_eq_self_of _ _ (fun c hc => h c (List.mem_reverse.mp hc))
  rw [trimChars, h1, h2, List.reverse_reverse]

theorem parseDigits_of_digits {l : List Char} (hne : l ≠ [])
    (h : ∀ c ∈ l, c.isDigit = true) : parseDigits l = some (valDigits l) := by
  simp only [parseDigits]
  rw [takeWhile_eq_self_of _ l h, if_neg hne]

theorem parseIntM_of_digits {l : List Char} (hne : l ≠ [])
    (h : ∀ c ∈ l, ∃ d, d < 10 ∧ c = digitChar d) :
    parseIntM l = some ((valDigits l : Nat) : Int) := by
  have hnospace : ∀ c ∈ l, isSpaceChar c = false := by
    intro c hc
    obtain ⟨d, hd, rfl⟩ := h c hc
    exact (digitChar_props hd).1
  have hdigit : ∀ c ∈ l, c.isDigit = true := by
    intro c hc
    obtain ⟨d, hd, rfl⟩ := h c hc
    exact (digitChar_props hd).2.1
  have hdrop : l.dropWhile isSpaceChar = l := dropWhile_eq_self_of _ _ hnospace
  cases l with
  | nil => exact absurd rfl hne
  | cons c rest =>
    obtain ⟨d, hd, hcd⟩ := h c (List.mem_cons_self _ _)
    have hcneg : c ≠ '-' := by rw [hcd]; exact (digitChar_props hd).2.2.1
    have hcplus : c ≠ '+' := by rw [hcd]; exact (digitChar_props hd).2.2.2.1
    simp only [parseIntM, hdrop]
    rw [if_neg hcneg, if_neg hcplus, parseDigits_of_digits hne hdigit]
    rfl

theorem parseIntM_renderNat (n : Nat) : parseIntM (renderNat n) = some (n : Int) := by
  rw [parseIntM_of_digits (renderNat_ne_nil n) (renderNat_chars n), valDigits_renderNat]

theorem renderInt_nonneg {n : Int} (h : 0 ≤ n) : renderInt n = renderNat n.toNat := by
  rw [renderInt, if_neg (by omega)]

theorem parseIntM_renderInt {n : Int} (h : 0 ≤ n) : parseIntM (renderInt n) = some n := by
  rw [renderInt_nonneg h, parseIntM_renderNat]
  congr 1
  omega

theorem renderInt_chars {n : Int} (h : 0 ≤ n) :
    ∀ c ∈ renderInt n, ∃ d, d < 10 ∧ c = digitChar d := by
  rw [renderInt_nonneg h]
  exact renderNat_chars _

/-! ## Character facts about rendered tokens -/

theorem renderInt_ne_nil (n : Int) : renderInt n ≠ [] := by
  rw [renderInt]
  by_cases h : n < 0
  · rw [if_pos h]; exact List.cons_ne_nil _ _
  · rw [if_neg h]; exact renderNat_ne_nil _

theorem comma_not_mem_renderNat (n : Nat) : ',' ∉ renderNat n := by
  intro hmem
  obtain ⟨d, hd, hc⟩ := renderNat_chars n ',' hmem
  exact (digitChar_props hd).2.2.2.2 hc.symm

theorem comma_not_mem_renderInt (n : Int) : ',' ∉ renderInt n := by
  rw [renderInt]
  by_cases h : n < 0
  · rw [if_pos h]
    intro hmem
    rcases List.mem_cons.mp hmem with hc | hc
    · exact absurd hc (by decide)
    · exact comma_not_mem_renderNat _ hc
  · rw [if_neg h]
    exact comma_not_mem_renderNat _

theorem comma_not_mem_renderRun (r : Int × Int) : ',' ∉ renderRun r := by
  rw [renderRun]
  by_cases h : r.1 = r.2
  · rw [if_pos h]; exact comma_not_mem_renderInt _
  · rw [if_neg h]
    intro hmem
    rcases List.mem_append.mp hmem with hc | hc
    · exact comma_not_mem_renderInt _ hc
    · rcases List.mem_cons.mp hc with hc' | hc'
      · exact absurd hc' (by decide)
      · exact comma_not_mem_renderInt _ hc'

theorem renderRun_ne_nil (r : Int × Int) : renderRun r ≠ [] := by
  rw [renderRun]
  by_cases h : r.1 = r.2
  · rw [if_pos h]; exact renderInt_ne_nil _
  · rw [if_neg h]
    intro hmem
    exact renderInt_ne_nil r.1 (List.append_eq_nil.mp hmem).1

theorem dash_not_mem_renderInt {n : Int} (h : 0 ≤ n) : '-' ∉ renderInt n := by
  intro hmem
  obtain ⟨d, hd, hc⟩ := renderInt_chars h '-' hmem
  exact (digitChar_props hd).2.2.1 hc.symm

theorem nospace_renderInt {n : Int} (h : 0 ≤ n) :
    ∀ c ∈ renderInt n, isSpaceChar c = false := by
  intro c hc
  obtain ⟨d, hd, rfl⟩ := renderInt_chars h c hc
  exact (digitChar_props hd).1

/-! ## `tokenPages` on rendered tokens -/

theorem getD_pair_zero (x y : List Char) : [x, y].getD 0 [] = x := rfl

theorem getD_pair_one (x y : List Char) : [x, y].getD 1 [] = y := rfl

theorem tokenPages_renderInt {a tp : Int} (h1 : 1 ≤ a) (h2 : a ≤ tp) :
    tokenPages tp (renderInt a) = [a] := by
  have h0 : (0 : Int) ≤ a := by omega
  have htrim : trimChars (renderInt a) = renderInt a :=
    trimChars_eq_self (nospace_renderInt h0)
  simp only [tokenPages, htrim]
  rw [if_neg (dash_not_mem_renderInt h0)]
  simp only [parseIntM_renderInt h0]
  rw [if_pos ⟨h1, h2⟩]

theorem tokenPages_renderRange {a b tp : Int} (h1 : 1 ≤ a) (hab : a ≤ b) (h2 : b ≤ tp) :
    tokenPages tp (renderInt a ++ '-' :: renderInt b) = rangeList a b := by
  have h0a : (0 : Int) ≤ a := by omega
  have h0b : (0 : Int) ≤ b := by omega
  have htrim : trimChars (renderInt a ++ '-' :: renderInt b)
      = renderInt a ++ '-' :: renderInt b := by
    apply trimChars_eq_self
    intro c hc
    rcases List.mem_append.mp hc with hm | hm
    · exact nospace_renderInt h0a c hm
    · rcases List.mem_cons.mp hm with rfl | hm'
      · decide
      · exact nospace_renderInt h0b c hm'
  have hdashmem : '-' ∈ renderInt a ++ '-' :: renderInt b :=
    List.mem_append.mpr (Or.inr (List.mem_cons_self _ _))
  have hsplit : splitOnChar '-' (renderInt a ++ '-' :: renderInt b)
      = [renderInt a, renderInt b] := by
    rw [splitOnChar_append _ (dash_not_mem_renderInt h0a),
      splitOnChar_of_not_mem (dash_not_mem_renderInt h0b)]
  simp only [tokenPages, htrim]
  rw [if_pos hdashmem]
  rw [hsplit, getD_pair_zero, getD_pair_one,
    trimChars_eq_self (nospace_renderInt h0a), trimChars_eq_self (nospace_renderInt h0b)]
  simp only [parseIntM_renderInt h0a, parseIntM_renderInt h0b]
  rw [if_pos ⟨h1, hab⟩, min_eq_left h2]

theorem tokenPages_renderRun {r : Int × Int} {tp : Int} (h1 : 1 ≤ r.1)
    (hab : r.1 ≤ r.2) (h2 : r.2 ≤ tp) :
    tokenPages tp (renderRun r) = rangeList r.1 r.2 := by
  rw [renderRun]
  by_cases h : r.1 = r.2
  · rw [if_pos h, tokenPages_renderInt h1 (by omega), h, rangeList_self]
  · rw [if_neg h, tokenPages_renderRange h1 hab h2]

/-! ## Run-grouping lemmas -/

theorem rangesAux_eq_map (l : List Int) :
    ∀ s e, rangesAux s e l = (runsAux s e l).map renderRun := by
  induction l with
  | nil => intro s e; rfl
  | cons p ps ih =>
    intro s e
    rw [rangesAux, runsAux]
    by_cases h : p = e + 1 <;> simp [h, ih]

theorem runsAux_flatten : ∀ (ps : List Int) (s e : Int), s ≤ e →
    List.Chain (· < ·) e ps →
    ((runsAux s e ps).map (fun r => rangeList r.1 r.2)).flatten = rangeList s e ++ ps := by
  intro ps
  induction ps with
  | nil => intro s e _ _; simp [runsAux]
  | cons p ps ih =>
    intro s e hse hchain
    cases hchain with
    | cons hep hch =>
      rw [runsAux]
      by_cases h : p = e + 1
      · subst h
        rw [if_pos rfl, ih s (e + 1) (by omega) hch, rangeList_snoc (by omega)]
        simp
      · rw [if_neg h]
        simp only [List.map_cons, List.flatten_cons]
        rw [ih p p (le_refl p) hch, rangeList_self]
        simp

theorem runsAux_bounds : ∀ (ps : List Int) (s e B : Int), s ≤ e → e ≤ B →
    List.Chain (· < ·) e ps → (∀ p ∈ ps, p ≤ B) →
    ∀ r ∈ runsAux s e ps, s ≤ r.1 ∧ r.1 ≤ r.2 ∧ r.2 ≤ B := by
  intro ps
  induction ps with
  | nil =>
    intro s e B hse heB _ _ r hr
    rw [runsAux, List.mem_singleton] at hr
    subst hr
    exact ⟨le_refl s, hse, heB⟩
  | cons p ps ih =>
    intro s e B hse heB hchain hB r hr
    cases hchain with
    | cons hep hch =>
      have hpB : p ≤ B := hB p (List.mem_cons_self _ _)
      have hB' : ∀ q ∈ ps, q ≤ B := fun q hq => hB q (List.mem_cons_of_mem _ hq)
      rw [runsAux] at hr
      by_cases h : p = e + 1
      · rw [if_pos h] at hr
        have := ih s p B (by omega) hpB (h ▸ hch) hB' r hr
        exact this
      · rw [if_neg h] at hr
        rcases List.mem_cons.mp hr with rfl | hr'
        · exact ⟨le_refl s, hse, heB⟩
        · have := ih p p B (le_refl p) hpB hch hB' r hr'
          exact ⟨by omega, this.2.1, this.2.2⟩

theorem runsAux_head : ∀ (ps : List Int) (s e : Int),
    ∃ b rest, runsAux s e ps = (s, b) :: rest := by
  intro ps
  induction ps with
  | nil => intro s e; exact ⟨e, [], rfl⟩
  | cons p ps ih =>
    intro s e
    rw [runsAux]
    by_cases h : p = e + 1
    · rw [if_pos h]; exact ih s p
    · rw [if_neg h]; exact ⟨e, runsAux p p ps, rfl⟩

theorem runsAux_gap_chain : ∀ (ps : List Int) (s e : Int), List.Chain (· < ·) e ps →
    List.Chain' (fun r r' : Int × Int => r.2 + 1 < r'.1) (runsAux s e ps) := by
  intro ps
  induction ps with
  | nil => intro s e _; simp [runsAux]
  | cons p ps ih =>
    intro s e hchain
    cases hchain with
    | cons hep hch =>
      rw [runsAux]
      by_cases h : p = e + 1
      · rw [if_pos h]; exact ih s p (h ▸ hch)
      · rw [if_neg h]
        obtain ⟨b, rest, hhead⟩ := runsAux_head ps p p
        rw [hhead, List.chain'_cons]
        constructor
        · show e + 1 < p
          omega
        · rw [← hhead]
          exact ih p p hch

/-! ## `maxPage` and sortedness helpers -/

theorem le_maxPage : ∀ (l : List Int), ∀ p ∈ l, p ≤ maxPage l := by
  intro l
  induction l with
  | nil => intro p hp; exact absurd hp (List.not_mem_nil p)
  | cons x xs ih =>
    intro p hp
    rcases List.mem_cons.mp hp with rfl | hp'
    · exact le_max_left _ _
    · exact le_trans (ih p hp') (le_max_right _ _)

theorem nodup_of_sorted {S : List Int} (h : List.Sorted (· < ·) S) : S.Nodup :=
  h.imp (fun hlt => ne_of_lt hlt)

/-! ## The parse/format round trip -/

theorem format_eq_render_runs (S : List Int) :
    formatPageRanges S = joinComma ((runsOf S).map renderRun) := by
  cases S with
  | nil => rfl
  | cons p ps => rw [formatPageRanges, runsOf, rangesAux_eq_map]

theorem parse_format_roundtrip (S : List Int) (hne : S ≠ [])
    (hsorted : List.Sorted (· < ·) S) (hpos : ∀ p ∈ S, 1 ≤ p) :
    parsePageRanges (formatPageRanges S) (maxPage S) = S := by
  cases S with
  | nil => exact absurd rfl hne
  | cons p ps =>
    have hchain : List.Chain (· < ·) p ps := List.chain_iff_pairwise.mpr hsorted
    have hbound : ∀ q ∈ p :: ps, q ≤ maxPage (p :: ps) := le_maxPage _
    have hp1 : 1 ≤ p := hpos p (List.mem_cons_self _ _)
    have hrbounds := runsAux_bounds ps p p (maxPage (p :: ps)) (le_refl p)
      (hbound p (List.mem_cons_self _ _)) hchain
      (fun q hq => hbound q (List.mem_cons_of_mem _ hq))
    have htne : (runsAux p p ps).map renderRun ≠ [] := by
      obtain ⟨b, rest, hhead⟩ := runsAux_head ps p p
      rw [hhead]
      simp
    have htnc : ∀ t ∈ (runsAux p p ps).map renderRun, ',' ∉ t := by
      intro t ht
      obtain ⟨r, _, rfl⟩ := List.mem_map.mp ht
      exact comma_not_mem_renderRun r
    have hmapeq : (runsAux p p ps).map (tokenPages (maxPage (p :: ps)) ∘ renderRun)
        = (runsAux p p ps).map (fun r => rangeList r.1 r.2) := by
      apply List.map_congr_left
      intro r hr
      have hb := hrbounds r hr
      exact tokenPages_renderRun (le_trans hp1 hb.1) hb.2.1 hb.2.2
    rw [parsePageRanges, expandPages, formatPageRanges, rangesAux_eq_map,
      splitOnChar_joinComma htne htnc, List.map_map, hmapeq,
      runsAux_flatten ps p p (le_refl p) hchain, rangeList_self]
    have hnodup : (p :: ps).Nodup := nodup_of_sorted hsorted
    have := dedupAux_of_nodup (p :: ps) [] hnodup (fun x _ => List.not_mem_nil x)
    simpa using this

/-! ## Selection-model lemmas -/

theorem getSelected_congr {st st' : PagePreviewState} (hdom : st'.domOrder = st.domOrder)
    (hsel : ∀ q, q ∈ st'.selected ↔ q ∈ st.selected) :
    getSelectedPagesArray st' = getSelectedPagesArray st := by
  rw [getSelectedPagesArray, getSelectedPagesArray, hdom]
  apply List.filter_congr
  intro a _
  exact decide_eq_decide.mpr (hsel a)

theorem toggle_domOrder (st : PagePreviewState) (p : Int) :
    (togglePageSelection st p).domOrder = st.domOrder := by
  by_cases h : p ∈ st.selected <;> simp [togglePageSelection, h]

theorem toggle_toggle_selected (st : PagePreviewState) (p : Int)
    (h : st.selected.Nodup) :
    ∀ q, q ∈ (togglePageSelection (togglePageSelection st p) p).selected ↔
      q ∈ st.selected := by
  intro q
  by_cases hp : p ∈ st.selected
  · have h1 : togglePageSelection st p = { st with selected := st.selected.erase p } := by
      rw [togglePageSelection, if_pos hp]
    have hpe : p ∉ st.selected.erase p := h.not_mem_erase
    rw [h1, togglePageSelection, if_neg hpe]
    show q ∈ st.selected.erase p ++ [p] ↔ q ∈ st.selected
    rw [List.mem_append, List.mem_singleton, h.mem_erase_iff]
    by_cases hq : q = p
    · simp [hq, hp]
    · simp [hq]
  · have h1 : togglePageSelection st p = { st with selected := st.selected ++ [p] } := by
      rw [togglePageSelection, if_neg hp]
    have hp2 : p ∈ st.selected ++ [p] := List.mem_append.mpr (Or.inr (List.mem_singleton.mpr rfl))
    rw [h1, togglePageSelection, if_pos hp2]
    show q ∈ (st.selected ++ [p]).erase p ↔ q ∈ st.selected
    rw [List.erase_append_right _ hp]
    simp

theorem mem_setAdd {s : List Int} {p q : Int} : q ∈ setAdd s p ↔ q ∈ s ∨ q = p := by
  rw [setAdd]
  by_cases h : p ∈ s
  · rw [if_pos h]
    by_cases hq : q = p <;> simp [h, hq]
  · rw [if_neg h]
    simp

theorem mem_foldl_setAdd : ∀ (l : List Nat) (s : List Int) (q : Int),
    q ∈ l.foldl (fun acc (i : Nat) => setAdd acc ((i : Int) + 1)) s ↔
      q ∈ s ∨ ∃ i ∈ l, q = (i : Int) + 1 := by
  intro l
  induction l with
  | nil => intro s q; simp
  | cons x xs ih =>
    intro s q
    rw [List.foldl_cons, ih]
    simp only [mem_setAdd, List.mem_cons]
    constructor
    · rintro ((hq | hq) | ⟨i, hi, rfl⟩)
      · exact Or.inl hq
      · exact Or.inr ⟨x, Or.inl rfl, hq⟩
      · exact Or.inr ⟨i, Or.inr hi, rfl⟩
    · rintro (hq | ⟨i, rfl | hi, rfl⟩)
      · exact Or.inl (Or.inl hq)
      · exact Or.inl (Or.inr rfl)
      · exact Or.inr ⟨i, hi, rfl⟩

theorem mem_selectAll_selected (st : PagePreviewState) (q : Int) :
    q ∈ (selectAll st).selected ↔
      q ∈ st.selected ∨ (1 ≤ q ∧ q ≤ (st.domOrder.length : Int)) := by
  show q ∈ (List.range st.domOrder.length).foldl
      (fun s (i : Nat) => setAdd s ((i : Int) + 1)) st.selected ↔ _
  rw [mem_foldl_setAdd]
  simp only [List.mem_range]
  constructor
  · rintro (hq | ⟨i, hi, rfl⟩)
    · exact Or.inl hq
    · exact Or.inr ⟨by omega, by omega⟩
  · rintro (hq | ⟨hq1, hq2⟩)
    · exact Or.inl hq
    · exact Or.inr ⟨(q - 1).toNat, by omega, by omega⟩

theorem selectAll_domOrder (st : PagePreviewState) :
    (selectAll st).domOrder = st.domOrder := rfl

theorem getSelected_selectAll (st : PagePreviewState)
    (hdom : ∀ q ∈ st.domOrder, 1 ≤ q ∧ q ≤ (st.domOrder.length : Int)) :
    getSelectedPagesArray (selectAll st) = st.domOrder := by
  rw [getSelectedPagesArray, selectAll_domOrder]
  apply List.filter_eq_self.mpr
  intro a ha
  have := (mem_selectAll_selected st a).mpr (Or.inr (hdom a ha))
  simpa using this

theorem getSelected_deselectAll (st : PagePreviewState) :
    getSelectedPagesArray (deselectAll st) = [] := by
  simp [getSelectedPagesArray, deselectAll]

/-! ## Reorder lemmas -/

theorem length_removeAt {α : Type} {l : List α} {i : Nat} (h : i < l.length) :
    (removeAt l i).length = l.length - 1 := by
  rw [removeAt]
  simp only [List.length_append, List.length_take, List.length_drop]
  omega

theorem eq_take_cons_drop {α : Type} {l : List α} {i : Nat} (h : i < l.length) :
    l = l.take i ++ l[i] :: l.drop (i + 1) := by
  conv_lhs => rw [← List.take_append_drop i l]
  rw [List.getElem_cons_drop l i h]

theorem insertAt_perm {α : Type} (l : List α) (i : Nat) (x : α) :
    List.Perm (insertAt l i x) (x :: l) := by
  rw [insertAt]
  have h : List.Perm (l.take i ++ x :: l.drop i) (x :: (l.take i ++ l.drop i)) :=
    List.perm_middle
  rw [List.take_append_drop] at h
  exact h

theorem removeAt_perm {α : Type} {l : List α} {i : Nat} (h : i < l.length) :
    List.Perm l (l[i] :: removeAt l i) := by
  conv_lhs => rw [eq_take_cons_drop h]
  rw [removeAt]
  exact List.perm_middle

theorem get_insertAt_self {α : Type} (l : List α) (i : Nat) (x : α) (h : i ≤ l.length) :
    (insertAt l i x)[i]? = some x := by
  have hlen : (l.take i).length = i := by
    simp [List.length_take]
    omega
  rw [insertAt, List.getElem?_append_right (by omega), hlen]
  simp

theorem removeAt_insertAt {α : Type} (l : List α) (i : Nat) (x : α) (h : i ≤ l.length) :
    removeAt (insertAt l i x) i = l := by
  have hlen : (l.take i).length = i := by
    simp [List.length_take]
    omega
  have h1 : (l.take i ++ x :: l.drop i).take i = l.take i := List.take_left' hlen
  have h2 : (l.take i ++ x :: l.drop i).drop (i + 1) = l.drop i := by
    have : l.take i ++ x :: l.drop i = (l.take i ++ [x]) ++ l.drop i := by simp
    rw [this]
    exact List.drop_left' (by simp [hlen])
  rw [insertAt, removeAt, h1, h2, List.take_append_drop]

theorem reorder_adjusted_lt {l : List α} {fromIndex toIndex : Nat}
    (h1 : fromIndex < l.length) (h2 : toIndex ≤ l.length) :
    (if fromIndex < toIndex then toIndex - 1 else toIndex) ≤ l.length - 1 := by
  by_cases h : fromIndex < toIndex <;> simp [h] <;> omega

theorem reorder_eq_of_ne {l : List α} {fromIndex toIndex : Nat} (h1 : fromIndex < l.length)
    (hne : fromIndex ≠ (if fromIndex < toIndex then toIndex - 1 else toIndex)) :
    reorder l fromIndex toIndex =
      insertAt (removeAt l fromIndex) (if fromIndex < toIndex then toIndex - 1 else toIndex)
        l[fromIndex] := by
  rw [reorder]
  simp only [if_neg hne]
  rw [List.getElem?_eq_getElem h1]

theorem reorder_perm {α : Type} (l : List α) (fromIndex toIndex : Nat)
    (h1 : fromIndex < l.length) :
    List.Perm (reorder l fromIndex toIndex) l := by
  by_cases heq : fromIndex = (if fromIndex < toIndex then toIndex - 1 else toIndex)
  · rw [reorder, if_pos heq]
  · rw [reorder_eq_of_ne h1 heq]
    exact (insertAt_perm _ _ _).trans (removeAt_perm h1).symm

theorem reorder_final_pos {α : Type} (l : List α) (fromIndex toIndex : Nat)
    (h1 : fromIndex < l.length) (h2 : toIndex ≤ l.length) :
    (reorder l fromIndex toIndex)[if fromIndex < toIndex then toIndex - 1 else toIndex]? =
      some l[fromIndex] := by
  by_cases heq : fromIndex = (if fromIndex < toIndex then toIndex - 1 else toIndex)
  · rw [reorder, if_pos heq, ← heq, List.getElem?_eq_getElem h1]
  · rw [reorder_eq_of_ne h1 heq]
    apply get_insertAt_self
    rw [length_removeAt h1]
    exact reorder_adjusted_lt h1 h2

theorem reorder_rest {α : Type} (l : List α) (fromIndex toIndex : Nat)
    (h1 : fromIndex < l.length) (h2 : toIndex ≤ l.length) :
    removeAt (reorder l fromIndex toIndex)
        (if fromIndex < toIndex then toIndex - 1 else toIndex) =
      removeAt l fromIndex := by
  by_cases heq : fromIndex = (if fromIndex < toIndex then toIndex - 1 else toIndex)
  · rw [reorder, if_pos heq, ← heq]
  · rw [reorder_eq_of_ne h1 heq]
    apply removeAt_insertAt
    rw [length_removeAt h1]
    exact reorder_adjusted_lt h1 h2

/-! ## First-occurrence order: positions in the output follow first positions
in the expanded input -/

theorem indexOf_filter_lt : ∀ (xs : List Int) (f : Int → Bool) (p q : Int),
    p ∈ xs.filter f → q ∈ xs.filter f →
    (xs.filter f).indexOf p < (xs.filter f).indexOf q →
    xs.indexOf p < xs.indexOf q := by
  intro xs
  induction xs with
  | nil => intro f p q hp _ _; simp at hp
  | cons a rest ih =>
    intro f p q hp hq hlt
    by_cases hf : f a
    · rw [List.filter_cons_of_pos hf] at hp hq hlt
      by_cases hpa : p = a
      · subst hpa
        have hqp : q ≠ p := by
          rintro rfl
          exact lt_irrefl _ hlt
        rw [List.indexOf_cons_self, List.indexOf_cons_ne _ (Ne.symm hqp)]
        omega
      · by_cases hqa : q = a
        · subst hqa
          rw [List.indexOf_cons_self] at hlt
          omega
        · rw [List.indexOf_cons_ne _ (Ne.symm hpa), List.indexOf_cons_ne _ (Ne.symm hqa)] at hlt
          have hp' : p ∈ rest.filter f := by
            rcases List.mem_cons.mp hp with h | h
            · exact absurd h hpa
            · exact h
          have hq' : q ∈ rest.filter f := by
            rcases List.mem_cons.mp hq with h | h
            · exact absurd h hqa
            · exact h
          have := ih f p q hp' hq' (by omega)
          rw [List.indexOf_cons_ne _ (Ne.symm hpa), List.indexOf_cons_ne _ (Ne.symm hqa)]
          omega
    · rw [List.filter_cons_of_neg hf] at hp hq hlt
      have hpa : p ≠ a := by
        rintro rfl
        exact hf (List.of_mem_filter hp)
      have hqa : q ≠ a := by
        rintro rfl
        exact hf (List.of_mem_filter hq)
      rw [List.indexOf_cons_ne _ (Ne.symm hpa), List.indexOf_cons_ne _ (Ne.symm hqa)]
      have := ih f p q hp hq hlt
      omega

theorem pairwise_indexOf_firstOccDedup : ∀ l : List Int,
    List.Pairwise (fun p q => l.indexOf p < l.indexOf q) (firstOccDedup l) := by
  intro l
  induction l using firstOccDedup.induct with
  | case1 => simp [firstOccDedup]
  | case2 x xs ih =>
    rw [firstOccDedup_cons]
    apply List.Pairwise.cons
    · intro q hq
      have hqf : q ∈ xs.filter (fun y => y ≠ x) :=
        (mem_firstOccDedup q _).mp hq
      have hqx : q ≠ x := by
        have := List.of_mem_filter hqf
        simpa using this
      rw [List.indexOf_cons_self, List.indexOf_cons_ne _ (Ne.symm hqx)]
      omega
    · refine List.Pairwise.imp_of_mem (fun {p} {q} hp hq hlt => ?_) ih
      have hpf : p ∈ xs.filter (fun y => y ≠ x) := (mem_firstOccDedup p _).mp hp
      have hqf : q ∈ xs.filter (fun y => y ≠ x) := (mem_firstOccDedup q _).mp hq
      have hpx : p ≠ x := by
        have := List.of_mem_filter hpf
        simpa using this
      have hqx : q ≠ x := by
        have := List.of_mem_filter hqf
        simpa using this
      have hxs : xs.indexOf p < xs.indexOf q := indexOf_filter_lt xs _ p q hpf hqf hlt
      rw [List.indexOf_cons_ne _ (Ne.symm hpx), List.indexOf_cons_ne _ (Ne.symm hqx)]
      omega

/-! ## Parse composition: tokens contribute independently -/

theorem splitOnChar_append_general (c : Char) : ∀ (a b : List Char),
    splitOnChar c (a ++ c :: b) = splitOnChar c a ++ splitOnChar c b := by
  intro a
  induction a with
  | nil =>
    intro b
    rw [List.nil_append, splitOnChar]
    cases h : splitOnChar c b with
    | nil => exact absurd h (splitOnChar_ne_nil c b)
    | cons p ps => simp [h, splitOnChar]
  | cons x xs ih =>
    intro b
    rw [List.cons_append, splitOnChar, ih b, splitOnChar]
    cases h : splitOnChar c xs with
    | nil => exact absurd h (splitOnChar_ne_nil c xs)
    | cons p ps => by_cases hx : x = c <;> simp [h, hx]

theorem expandPages_append (t₁ t₂ : List Char) (tp : Int) :
    expandPages (t₁ ++ ',' :: t₂) tp = expandPages t₁ tp ++ expandPages t₂ tp := by
  rw [expandPages, expandPages, expandPages, splitOnChar_append_general,
    List.map_append, List.flatten_append]

theorem expandPages_no_comma {t : List Char} (tp : Int) (h : ',' ∉ t) :
    expandPages t tp = tokenPages tp t := by
  rw [expandPages, splitOnChar_of_not_mem h]
  simp

theorem parse_skip_invalid (t₁ bad t₂ : List Char) (tp : Int) (hc : ',' ∉ bad)
    (hbad : tokenPages tp bad = []) :
    parsePageRanges (t₁ ++ ',' :: bad ++ ',' :: t₂) tp
      = parsePageRanges (t₁ ++ ',' :: t₂) tp := by
  rw [parsePageRanges, parsePageRanges]
  congr 1
  simp only [List.append_assoc, List.cons_append]
  rw [expandPages_append t₁ (bad ++ ',' :: t₂), expandPages_append bad t₂,
    expandPages_append t₁ t₂, expandPages_no_comma tp hc, hbad]
  simp

/-! ## Claim theorems -/

/-- Claim C1: for every input text and every `totalPages`, `parsePageRanges`
returns the distinct valid page numbers of the expanded input in
first-occurrence order: the result is exactly the first-occurrence
deduplication of the expansion (duplicate-free, same members, a sublist of
the expansion, and ordered by first position of occurrence in the
expansion); in particular `parse("5-7,1,3", 10) = [5,6,7,1,3]` and
`parse("1,1,2", 10) = [1,2]`. -/
theorem claim_C1 :
    (∀ (text : List Char) (totalPages : Int),
      parsePageRanges text totalPages = firstOccDedup (expandPages text totalPages) ∧
      (parsePageRanges text totalPages).Nodup ∧
      (∀ p : Int, p ∈ parsePageRanges text totalPages ↔ p ∈ expandPages text totalPages) ∧
      List.Sublist (parsePageRanges text totalPages) (expandPages text totalPages) ∧
      List.Pairwise (fun p q => (expandPages text totalPages).indexOf p <
        (expandPages text totalPages).indexOf q) (parsePageRanges text totalPages)) ∧
    parsePageRanges ['5', '-', '7', ',', '1', ',', '3'] 10 = [5, 6, 7, 1, 3] ∧
    parsePageRanges ['1', ',', '1', ',', '2'] 10 = [1, 2] := by
  refine ⟨?_, by decide, by decide⟩
  intro text tp
  have h := parsePageRanges_eq_firstOccDedup text tp
  refine ⟨h, ?_, ?_, ?_, ?_⟩
  · rw [h]; exact nodup_firstOccDedup _
  · intro p; rw [h]; exact mem_firstOccDedup p _
  · rw [h]; exact sublist_firstOccDedup _
  · rw [h]; exact pairwise_indexOf_firstOccDedup _

/-- Claim C2: for every non-empty, strictly ascending (hence duplicate-free)
sequence `S` of page numbers all `≥ 1`, parsing the formatted string with
`totalPages = max S` returns `S` itself. -/
theorem claim_C2 (S : List Int) (hne : S ≠ []) (hsorted : List.Sorted (· < ·) S)
    (hpos : ∀ p ∈ S, 1 ≤ p) :
    parsePageRanges (formatPageRanges S) (maxPage S) = S :=
  parse_format_roundtrip S hne hsorted hpos

/-- Witness for C2 at `S = [1,2,3,5]`. -/
theorem claim_C2_witness :
    parsePageRanges (formatPageRanges [1, 2, 3, 5]) (maxPage [1, 2, 3, 5]) = [1, 2, 3, 5] :=
  claim_C2 [1, 2, 3, 5] (by decide) (by decide) (by decide)

/-- Claim C3: for every duplicate-free ascending sequence, `formatPageRanges`
groups maximal consecutive runs, emits `"start"` for singleton runs and
`"start-end"` for longer runs, and joins the groups with commas: the output
is the comma-join of the rendered runs, the runs expand back to exactly the
input, each run is a well-formed interval, and adjacent runs cannot be merged
(maximality); in particular `format([1,2,3,5,7,8,9]) = "1-3,5,7-9"`,
`format([]) = ""`, and `format([4]) = "4"`. -/
theorem claim_C3 (S : List Int) (hsorted : List.Sorted (· < ·) S) :
    (formatPageRanges S = joinComma ((runsOf S).map renderRun) ∧
      ((runsOf S).map (fun r => rangeList r.1 r.2)).flatten = S ∧
      (∀ r ∈ runsOf S, r.1 ≤ r.2) ∧
      List.Chain' (fun r r' : Int × Int => r.2 + 1 < r'.1) (runsOf S)) ∧
    formatPageRanges [1, 2, 3, 5, 7, 8, 9] = ['1', '-', '3', ',', '5', ',', '7', '-', '9'] ∧
    formatPageRanges [] = [] ∧
    formatPageRanges [4] = ['4'] := by
  refine ⟨?_, by decide, by decide, by decide⟩
  cases S with
  | nil => exact ⟨rfl, rfl, fun r hr => absurd hr (List.not_mem_nil r), trivial⟩
  | cons p ps =>
    have hchain : List.Chain (· < ·) p ps := List.chain_iff_pairwise.mpr hsorted
    refine ⟨format_eq_render_runs _, ?_, ?_, ?_⟩
    · show ((runsAux p p ps).map (fun r => rangeList r.1 r.2)).flatten = p :: ps
      rw [runsAux_flatten ps p p (le_refl p) hchain, rangeList_self]
      simp
    · intro r hr
      have hb := runsAux_bounds ps p p (maxPage (p :: ps)) (le_refl p)
        (le_maxPage _ p (List.mem_cons_self _ _)) hchain
        (fun q hq => le_maxPage _ q (List.mem_cons_of_mem _ hq)) r hr
      exact hb.2.1
    · show List.Chain' _ (runsAux p p ps)
      exact runsAux_gap_chain ps p p hchain

/-- Witness for C3 at `S = [1,2,3,5]`. -/
theorem claim_C3_witness :
    formatPageRanges [1, 2, 3, 5] = joinComma ((runsOf [1, 2, 3, 5]).map renderRun) ∧
    ((runsOf [1, 2, 3, 5]).map (fun r => rangeList r.1 r.2)).flatten = [1, 2, 3, 5] :=
  ⟨((claim_C3 [1, 2, 3, 5] (by decide)).1).1, ((claim_C3 [1, 2, 3, 5] (by decide)).1).2.1⟩

/-- Claim C4: every accepted range token (both pieces parse, `start ≥ 1`,
`start ≤ end`) expands to exactly the pages `start .. min(end, totalPages)`,
silently clipping pages beyond `totalPages`; in particular
`parse("8-12", 10) = [8,9,10]`. -/
theorem claim_C4 :
    (∀ (part : List Char) (totalPages s e : Int),
      '-' ∈ trimChars part →
      parseIntM (trimChars ((splitOnChar '-' (trimChars part)).getD 0 [])) = some s →
      parseIntM (trimChars ((splitOnChar '-' (trimChars part)).getD 1 [])) = some e →
      1 ≤ s → s ≤ e →
      tokenPages totalPages part = rangeList s (min e totalPages) ∧
      (∀ p : Int, p ∈ tokenPages totalPages part ↔ s ≤ p ∧ p ≤ e ∧ p ≤ totalPages)) ∧
    parsePageRanges ['8', '-', '1', '2'] 10 = [8, 9, 10] := by
  refine ⟨?_, by decide⟩
  intro part tp s e hdash hs he h1 h2
  have heq : tokenPages tp part = rangeList s (min e tp) := by
    simp only [tokenPages]
    rw [if_pos hdash]
    simp only [hs, he]
    rw [if_pos (⟨h1, h2⟩ : 1 ≤ s ∧ s ≤ e)]
  refine ⟨heq, ?_⟩
  intro p
  rw [heq, mem_rangeList]
  omega

/-- Witness for C4 at the token `"8-12"` with `totalPages = 10`. -/
theorem claim_C4_witness :
    tokenPages 10 ['8', '-', '1', '2'] = rangeList 8 (min 12 10) :=
  (claim_C4.1 ['8', '-', '1', '2'] 10 8 12 (by decide) (by decide) (by decide)
    (by decide) (by decide)).1

/-- Claim C5: a range token whose start exceeds its end contributes no pages
and raises no error, and tokens contribute independently (splitting at a
comma splits the output), so the other tokens are unaffected; in particular
`parse("3-1", 10) = []`. -/
theorem claim_C5 :
    (∀ (part : List Char) (totalPages s e : Int),
      '-' ∈ trimChars part →
      parseIntM (trimChars ((splitOnChar '-' (trimChars part)).getD 0 [])) = some s →
      parseIntM (trimChars ((splitOnChar '-' (trimChars part)).getD 1 [])) = some e →
      e < s →
      tokenPages totalPages part = []) ∧
    (∀ (t₁ t₂ : List Char) (totalPages : Int),
      expandPages (t₁ ++ ',' :: t₂) totalPages
        = expandPages t₁ totalPages ++ expandPages t₂ totalPages) ∧
    parsePageRanges ['3', '-', '1'] 10 = [] := by
  refine ⟨?_, fun t₁ t₂ tp => expandPages_append t₁ t₂ tp, by decide⟩
  intro part tp s e hdash hs he hlt
  simp only [tokenPages]
  rw [if_pos hdash]
  simp only [hs, he]
  rw [if_neg (by omega : ¬(1 ≤ s ∧ s ≤ e))]

/-- Witness for C5 at the token `"3-1"` with `totalPages = 10`. -/
theorem claim_C5_witness : tokenPages 10 ['3', '-', '1'] = [] :=
  (claim_C5.1 ['3', '-', '1'] 10 3 1 (by decide) (by decide) (by decide) (by decide))

/-- Counterexample for C6 as stated: the claim predicts
`reorder(0, 2)` on `[A,B,C,D]` yields `[B,C,A,D]`, but the code's index
adjustment (`toIndex--` when `fromIndex < toIndex`) makes it insert at the
adjusted index 1, yielding `[B,A,C,D]`. -/
theorem claim_C6_counterexample :
    reorder ['A', 'B', 'C', 'D'] 0 2 = ['B', 'A', 'C', 'D'] ∧
    reorder ['A', 'B', 'C', 'D'] 0 2 ≠ ['B', 'C', 'A', 'D'] := by decide

/-- Claim C6 (amended): the reorder operation removes the element at
`fromIndex` and inserts it at `toIndex` adjusted downward by one when
`fromIndex < toIndex`: the result is a permutation of the input, the moved
element lands at the adjusted index, the relative order of all other
elements is unchanged, and `reorder(0, 2)` on `[A,B,C,D]` yields
`[B,A,C,D]` (not `[B,C,A,D]` as originally claimed). -/
theorem claim_C6 {α : Type} (l : List α) (fromIndex toIndex : Nat)
    (h1 : fromIndex < l.length) (h2 : toIndex ≤ l.length) :
    List.Perm (reorder l fromIndex toIndex) l ∧
    (reorder l fromIndex toIndex)[if fromIndex < toIndex then toIndex - 1 else toIndex]?
      = some l[fromIndex] ∧
    removeAt (reorder l fromIndex toIndex)
      (if fromIndex < toIndex then toIndex - 1 else toIndex) = removeAt l fromIndex ∧
    reorder ['A', 'B', 'C', 'D'] 0 2 = ['B', 'A', 'C', 'D'] :=
  ⟨reorder_perm l fromIndex toIndex h1, reorder_final_pos l fromIndex toIndex h1 h2,
    reorder_rest l fromIndex toIndex h1 h2, by decide⟩

/-- Witness for C6 at `[A,B,C,D]`, `fromIndex = 0`, `toIndex = 2`. -/
theorem claim_C6_witness :
    List.Perm (reorder ['A', 'B', 'C', 'D'] 0 2) ['A', 'B', 'C', 'D'] :=
  (claim_C6 ['A', 'B', 'C', 'D'] 0 2 (by decide) (by decide)).1

/-- Claim C7: toggling the same page twice returns the selection model to
exactly the prior observable state: same membership, same ordered page list,
same thumbnail order. -/
theorem claim_C7 (st : PagePreviewState) (p : Int) (hnd : st.selected.Nodup) :
    (∀ q : Int, q ∈ (togglePageSelection (togglePageSelection st p) p).selected ↔
      q ∈ st.selected) ∧
    getSelectedPagesArray (togglePageSelection (togglePageSelection st p) p)
      = getSelectedPagesArray st ∧
    (togglePageSelection (togglePageSelection st p) p).domOrder = st.domOrder := by
  have hdom : (togglePageSelection (togglePageSelection st p) p).domOrder
      = st.domOrder := by
    rw [toggle_domOrder, toggle_domOrder]
  have hsel := toggle_toggle_selected st p hnd
  exact ⟨hsel, getSelected_congr hdom hsel, hdom⟩

/-- Witness for C7: toggling page 2 twice on a state with pages `[1,2,3]`
and selection `{2}`. -/
theorem claim_C7_witness :
    getSelectedPagesArray (togglePageSelection (togglePageSelection ⟨[1, 2, 3], [2]⟩ 2) 2)
      = getSelectedPagesArray ⟨[1, 2, 3], [2]⟩ :=
  (claim_C7 ⟨[1, 2, 3], [2]⟩ 2 (by decide)).2.1

/-- Counterexample for C8 as stated: `selectAll` does not reset the ordered
selection to the ascending sequence `1..totalPages` for every prior state —
when the thumbnails have been drag-reordered to DOM order `[2,1]`, the
ordered selection after `selectAll` is `[2,1]`, not `[1,2]`. -/
theorem claim_C8_counterexample :
    getSelectedPagesArray (selectAll ⟨[2, 1], []⟩) = [2, 1] ∧
    getSelectedPagesArray (selectAll ⟨[2, 1], []⟩) ≠ [1, 2] := by decide

/-- Claim C8 (amended): for every prior state whose pages are among
`1..totalPages` (with `totalPages` the number of thumbnails), `selectAll`
makes the selection membership exactly `{1..totalPages}` and the ordered
selection equal to the current DOM order of the thumbnails — which is the
ascending sequence `1..totalPages` exactly when the thumbnails are in their
original ascending order — and a subsequent `deselectAll` yields the empty
selection regardless of any prior state. -/
theorem claim_C8 (st : PagePreviewState)
    (hsel : ∀ q ∈ st.selected, 1 ≤ q ∧ q ≤ (st.domOrder.length : Int))
    (hdom : ∀ q ∈ st.domOrder, 1 ≤ q ∧ q ≤ (st.domOrder.length : Int)) :
    (∀ q : Int, q ∈ (selectAll st).selected ↔
      1 ≤ q ∧ q ≤ (st.domOrder.length : Int)) ∧
    getSelectedPagesArray (selectAll st) = st.domOrder ∧
    (st.domOrder = rangeList 1 (st.domOrder.length : Int) →
      getSelectedPagesArray (selectAll st) = rangeList 1 (st.domOrder.length : Int)) ∧
    (∀ st' : PagePreviewState, getSelectedPagesArray (deselectAll st') = []) := by
  have hga := getSelected_selectAll st hdom
  refine ⟨?_, hga, ?_, fun st' => getSelected_deselectAll st'⟩
  · intro q
    rw [mem_selectAll_selected]
    constructor
    · rintro (hq | hq)
      · exact hsel q hq
      · exact hq
    · exact Or.inr
  · intro hasc
    rw [hga]
    exact hasc

/-- Witness for C8 on the state with pages `[1,2,3]` and selection `{2}`. -/
theorem claim_C8_witness :
    getSelectedPagesArray (selectAll ⟨[1, 2, 3], [2]⟩) = [1, 2, 3] :=
  (claim_C8 ⟨[1, 2, 3], [2]⟩ (by decide) (by decide)).2.1

/-- Claim C9: the parser and formatter are total — modelled as total
functions they return a (possibly empty) result on every input — with
`parse("", 10) = []` and `parse("abc", 10) = []`, the formatter total even
on unsorted input, and any token failing validation contributing nothing
without aborting the rest of the parse. -/
theorem claim_C9 :
    parsePageRanges [] 10 = [] ∧
    parsePageRanges ['a', 'b', 'c'] 10 = [] ∧
    formatPageRanges [] = [] ∧
    formatPageRanges [3, 1, 2] = ['3', ',', '1', '-', '2'] ∧
    (∀ (t₁ bad t₂ : List Char) (totalPages : Int), ',' ∉ bad →
      tokenPages totalPages bad = [] →
      parsePageRanges (t₁ ++ ',' :: bad ++ ',' :: t₂) totalPages
        = parsePageRanges (t₁ ++ ',' :: t₂) totalPages) :=
  ⟨by decide, by decide, rfl, by decide,
    fun t₁ bad t₂ tp hc hbad => parse_skip_invalid t₁ bad t₂ tp hc hbad⟩

/-- Witness for C9: the invalid token `"abc"` between `"1"` and `"2"` is
skipped. -/
theorem claim_C9_witness :
    parsePageRanges (['1'] ++ ',' :: ['a', 'b', 'c'] ++ ',' :: ['2']) 10
      = parsePageRanges (['1'] ++ ',' :: ['2']) 10 :=
  claim_C9.2.2.2.2 ['1'] ['a', 'b', 'c'] ['2'] 10 (by decide) (by decide)

/-- Claim C10: on every input the two `parsePageRanges` variants
(first-occurrence order in `src/js/app.js`; `Set` plus ascending sort in
`src/unnamed/part_000`) return the same set of page numbers, differing at
most in element order (the sorted variant being ascending). -/
theorem claim_C10 (text : List Char) (totalPages : Int) :
    List.Perm (parsePageRangesSorted text totalPages) (parsePageRanges text totalPages) ∧
    (∀ p : Int, p ∈ parsePageRangesSorted text totalPages ↔
      p ∈ parsePageRanges text totalPages) ∧
    List.Sorted (· ≤ ·) (parsePageRangesSorted text totalPages) := by
  have hperm : List.Perm (parsePageRangesSorted text totalPages)
      (parsePageRanges text totalPages) := by
    rw [parsePageRangesSorted, parsePageRanges]
    exact List.perm_insertionSort _ _
  refine ⟨hperm, fun p => hperm.mem_iff, ?_⟩
  rw [parsePageRangesSorted]
  exact List.sorted_insertionSort _ _

end PdfEditor
